import Mathlib

/-!
Shallow embedding of the Contact Management System
(`src/contact-management-system/main.cpp`).

Strings are modelled as `List Char`, the C++ `int` as the unbounded `Int`
(the claims under study do not depend on 32-bit overflow).  File I/O is
stripped away: `loadContacts` is the pure decoder applied to the file's
text and `saveContacts` the pure encoder producing it; the interactive
prompts become explicit arguments.  A `std::getline` that fails (stream
already exhausted) leaves the target string empty, so the per-line field
extraction of `loadContacts` is modelled by splitting the line on `'|'`
and defaulting every missing field to the empty string, which agrees with
the C++ semantics field by field.  `std::stoi` (skip `isspace` whitespace,
optional sign, at least one digit, trailing characters ignored) is
modelled by `stoi`, returning `none` where the C++ call throws.
-/

namespace CMS

/-- Contact record (main.cpp lines 8-13). -/
structure Contact where
  id : Int
  name : List Char
  phone : List Char
  email : List Char
deriving DecidableEq

/-- Whitespace set used by `trim` in main.cpp line 20: `" \t\n\r"`. -/
def isTrimWS (c : Char) : Bool :=
  c = ' ' || c = '\t' || c = '\n' || c = '\r'

/-- Utility `trim` (main.cpp lines 19-24): strip leading and trailing
characters of `" \t\n\r"`; all-whitespace input becomes empty. -/
def trim (s : List Char) : List Char :=
  ((s.dropWhile isTrimWS).reverse.dropWhile isTrimWS).reverse

/-- Whitespace recognised by `std::isspace` in the default locale, as skipped
by `std::stoi`. -/
def isSpaceCh (c : Char) : Bool :=
  c = ' ' || c = '\t' || c = '\n' || c = Char.ofNat 11 || c = Char.ofNat 12 || c = '\r'

/-- Decimal digit test. -/
def isDigitCh (c : Char) : Bool :=
  '0' ≤ c && c ≤ '9'

/-- Accumulate one decimal digit. -/
def digitFold (a : Nat) (c : Char) : Nat :=
  a * 10 + (c.toNat - 48)

/-- Parse the maximal leading run of digits; `none` when there is no digit
(where `std::stoi` throws `invalid_argument`). -/
def stoiDigits (s : List Char) : Option Nat :=
  match s.takeWhile isDigitCh with
  | [] => none
  | ds => some (ds.foldl digitFold 0)

/-- Smallest value of the platform's 32-bit `int`, the type of `Contact.id`. -/
def intMin : Int := -2147483648

/-- Largest value of the platform's 32-bit `int`. -/
def intMax : Int := 2147483647

/-- Model of `std::stoi` (main.cpp line 36): optional whitespace, optional
sign, at least one digit, trailing characters ignored; `none` both where the
call throws `invalid_argument` (no digit) and where it throws `out_of_range`
(the converted value does not fit in `int`). -/
def stoi (s : List Char) : Option Int :=
  let s1 := s.dropWhile isSpaceCh
  if s1 = [] then none
  else if s1.head! = '+' then
    (stoiDigits s1.tail).bind (fun n =>
      if intMin ≤ (n : Int) ∧ (n : Int) ≤ intMax then some (n : Int) else none)
  else if s1.head! = '-' then
    (stoiDigits s1.tail).bind (fun n =>
      if intMin ≤ -(n : Int) ∧ -(n : Int) ≤ intMax then some (-(n : Int)) else none)
  else
    (stoiDigits s1).bind (fun n =>
      if intMin ≤ (n : Int) ∧ (n : Int) ≤ intMax then some (n : Int) else none)

/-- Split a line at each `'|'`: first field plus the remaining fields
(the `std::getline (ss, _, '|')` loop of main.cpp lines 36-39). -/
def splitOnPipe : List Char → List Char × List (List Char)
  | [] => ([], [])
  | c :: cs =>
    let r := splitOnPipe cs
    if c = '|' then ([], r.1 :: r.2) else (c :: r.1, r.2)

/-- All `'|'`-delimited fields of a line, in order (never empty as a list). -/
def splitFields (l : List Char) : List (List Char) :=
  (splitOnPipe l).1 :: (splitOnPipe l).2

/-- Parse one line into a Contact (body of the `while` loop, main.cpp lines
34-40): `stoi` on the first field, remaining fields positional with missing
trailing fields left empty (a failed `std::getline` leaves the string empty). -/
def parseLine (l : List Char) : Option Contact :=
  match stoi (splitOnPipe l).1 with
  | none => none
  | some k =>
    some ⟨k, (splitFields l).getD 1 [], (splitFields l).getD 2 [], (splitFields l).getD 3 []⟩

/-- Lines delivered by repeated `std::getline (infile, line)`: each `'\n'`
terminates a line (the terminator is consumed), reading stops at end of
input, and a final line terminator yields no extra empty line. -/
def linesOf : List Char → List (List Char)
  | [] => []
  | c :: cs =>
    if c = '\n' then [] :: linesOf cs
    else
      match linesOf cs with
      | [] => [[c]]
      | l :: ls => (c :: l) :: ls

/-- Decoder: `loadContacts` (main.cpp lines 27-42) as a pure function of the
file text; `none` when `std::stoi` throws (the load dies with an uncaught
exception), otherwise the contacts in file order. -/
def parseLinesList : List (List Char) → Option (List Contact)
  | [] => some []
  | l :: ls =>
    match parseLine l, parseLinesList ls with
    | some c, some cs => some (c :: cs)
    | _, _ => none

/-- Storage-codec `decode`: the pure content of `loadContacts`. -/
def loadContacts (t : List Char) : Option (List Contact) :=
  parseLinesList (linesOf t)

/-- Decimal digits of a natural number, most significant first, as written by
`operator<<`. -/
def natRepr (n : Nat) : List Char :=
  if n = 0 then ['0'] else ((Nat.digits 10 n).map fun d => Char.ofNat (48 + d)).reverse

/-- Decimal rendering of an `int` by `operator<<`. -/
def intRepr (i : Int) : List Char :=
  if i < 0 then '-' :: natRepr i.natAbs else natRepr i.toNat

/-- One output line of `saveContacts` (main.cpp line 48):
`id|name|phone|email` followed by `'\n'`. -/
def encodeContact (c : Contact) : List Char :=
  intRepr c.id ++ '|' :: (c.name ++ '|' :: (c.phone ++ '|' :: (c.email ++ ['\n'])))

/-- Storage-codec `encode`: `saveContacts` (main.cpp lines 45-50) as the pure
text it writes. -/
def saveContacts (cs : List Contact) : List Char :=
  (cs.map encodeContact).flatten

/-- Maximum-id fold of `nextId` (main.cpp lines 53-56). -/
def maxIdFold : Int → List Contact → Int
  | m, [] => m
  | m, c :: cs => maxIdFold (if c.id > m then c.id else m) cs

/-- Function `nextId` (main.cpp lines 52-58). -/
def nextId (st : List Contact) : Int :=
  maxIdFold 0 st + 1

/-- Operation `addContact` (main.cpp lines 60-72) with the prompted strings as
arguments: append a contact carrying `nextId`. -/
def addContact (st : List Contact) (n p e : List Char) : List Contact :=
  st ++ [⟨nextId st, n, p, e⟩]

/-- Per-field update of `editContact` (main.cpp lines 90-101): a replacement
that is blank after trimming keeps the old value, otherwise the raw input is
stored. -/
def applyEdit (c : Contact) (n p e : List Char) : Contact :=
  { c with
    name := if trim n = [] then c.name else n
    phone := if trim p = [] then c.phone else p
    email := if trim e = [] then c.email else e }

/-- Operation `editContact` (main.cpp lines 85-109): update the first contact
with the given id in place, `none` when no contact matches. -/
def editContact : List Contact → Int → List Char → List Char → List Char → Option (List Contact)
  | [], _, _, _, _ => none
  | c :: cs, i, n, p, e =>
    if c.id = i then some (applyEdit c n p e :: cs)
    else (editContact cs i n p e).map (c :: ·)

/-- Order-preserving removal performed by the `std::remove_if`/`erase` idiom
(main.cpp lines 114-116). -/
def eraseMatching : Int → List Contact → List Contact
  | _, [] => []
  | i, c :: cs => if c.id = i then eraseMatching i cs else c :: eraseMatching i cs

/-- Operation `deleteContact` (main.cpp lines 111-122): remove every contact
with the given id, `none` ("not found") when nothing matched. -/
def deleteContact (st : List Contact) (i : Int) : Option (List Contact) :=
  if st.any (fun c => c.id == i) then some (eraseMatching i st) else none

/-- Model of `std::string::find (q) != npos`: does `q` occur as a contiguous
substring of `s`? -/
def strFind : List Char → List Char → Bool
  | [], q => q.isPrefixOf ([] : List Char)
  | c :: s, q => q.isPrefixOf (c :: s) || strFind s q

/-- Operation `searchContacts` (main.cpp lines 124-138): trim the query, keep
the contacts (in order) whose name, phone or email contains it. -/
def searchContacts (st : List Contact) (q : List Char) : List Contact :=
  let t := trim q
  st.filter (fun c => strFind c.name t || strFind c.phone t || strFind c.email t)

/-- One menu-driven mutation of the store. -/
inductive Op where
  | add (n p e : List Char)
  | edit (i : Int) (n p e : List Char)
  | del (i : Int)

/-- Apply one operation; a failed edit or delete leaves the store unchanged. -/
def applyOp (st : List Contact) : Op → List Contact
  | .add n p e => addContact st n p e
  | .edit i n p e => (editContact st i n p e).getD st
  | .del i => (deleteContact st i).getD st

/-- Run a sequence of operations. -/
def runOps : List Contact → List Op → List Contact
  | st, [] => st
  | st, o :: os => runOps (applyOp st o) os

/-- Run a sequence of Add operations with the given prompted inputs. -/
def runAdds : List Contact → List (List Char × List Char × List Char) → List Contact
  | st, [] => st
  | st, (n, p, e) :: rest => runAdds (addContact st n p e) rest

/-- Uniqueness of ids in the store. -/
def uniqueIds (st : List Contact) : Prop :=
  (st.map Contact.id).Nodup

/-- Sequence of ids `1, 2, ..., k`, used to state the id-assignment claim. -/
def natSeq (k : Nat) : List Int :=
  (List.range k).map (fun i => (i : Int) + 1)

/-! ### General lemmas about the embedded operations -/

theorem eraseMatching_eq_filter (i : Int) (st : List Contact) :
    eraseMatching i st = st.filter (fun c => !(c.id == i)) := by
  induction st with
  | nil => rfl
  | cons c cs ih =>
    by_cases hc : c.id = i <;> simp [eraseMatching, List.filter_cons, hc, ih]

/-- CLAIM C5. If `deleteContact id` succeeds then the result contains no
contact with that id and equals the original collection filtered to the
non-matching contacts, so every non-matching contact keeps its fields and
the relative order is unchanged. -/
theorem delete_removes_id_and_keeps_rest (st : List Contact) (i : Int)
    (st' : List Contact) (h : deleteContact st i = some st') :
    (∀ c ∈ st', c.id ≠ i) ∧ st' = st.filter (fun c => !(c.id == i)) := by
  have hst' : st' = eraseMatching i st := by
    by_cases hany : st.any (fun c => c.id == i)
    · simpa [deleteContact, hany] using h.symm
    · simp [deleteContact, hany] at h
  subst hst'
  rw [eraseMatching_eq_filter]
  refine ⟨fun c hc => ?_, rfl⟩
  have := List.of_mem_filter hc
  simpa using this

theorem delete_removes_id_and_keeps_rest_witness :
    (∀ c ∈ [(⟨2, ['B'], [], []⟩ : Contact)], c.id ≠ 1) ∧
      [(⟨2, ['B'], [], []⟩ : Contact)] =
        [(⟨1, ['A'], [], []⟩ : Contact), ⟨2, ['B'], [], []⟩].filter
          (fun c => !(c.id == 1)) :=
  delete_removes_id_and_keeps_rest
    [⟨1, ['A'], [], []⟩, ⟨2, ['B'], [], []⟩] 1 [⟨2, ['B'], [], []⟩] (by decide)

/-- CLAIM C7. An edit of a present id whose three replacement inputs are all
blank after trimming succeeds and leaves the whole collection unchanged. -/
theorem edit_blank_keeps_contact (st : List Contact) (i : Int)
    (n p e : List Char) (hn : trim n = []) (hp : trim p = []) (he : trim e = [])
    (hex : ∃ c ∈ st, c.id = i) : editContact st i n p e = some st := by
  induction st with
  | nil => simp at hex
  | cons c cs ih =>
    by_cases hc : c.id = i
    · have hid : applyEdit c n p e = c := by simp [applyEdit, hn, hp, he]
      simp [editContact, hc, hid]
    · obtain ⟨c', hc', hid⟩ := hex
      rcases List.mem_cons.mp hc' with rfl | hmem
      · exact absurd hid hc
      · simp [editContact, hc, ih ⟨c', hmem, hid⟩]

theorem edit_blank_keeps_contact_witness :
    editContact [(⟨3, ['C'], ['5'], ['x']⟩ : Contact)] 3 [' '] [] ['\t', '\r'] =
      some [⟨3, ['C'], ['5'], ['x']⟩] :=
  edit_blank_keeps_contact [⟨3, ['C'], ['5'], ['x']⟩] 3 [' '] [] ['\t', '\r']
    (by decide) (by decide) (by decide) ⟨⟨3, ['C'], ['5'], ['x']⟩, by decide⟩

/-- CLAIM C9. A replacement input that is non-blank after trimming is stored
exactly as entered, surrounding whitespace included: trimming only decides
blankness and is never applied to the stored value. -/
theorem edit_stores_raw_input (c : Contact) (n p e : List Char) :
    ((trim n ≠ [] → (applyEdit c n p e).name = n) ∧
      (trim n = [] → (applyEdit c n p e).name = c.name)) ∧
    ((trim p ≠ [] → (applyEdit c n p e).phone = p) ∧
      (trim p = [] → (applyEdit c n p e).phone = c.phone)) ∧
    ((trim e ≠ [] → (applyEdit c n p e).email = e) ∧
      (trim e = [] → (applyEdit c n p e).email = c.email)) := by
  refine ⟨⟨fun hn => ?_, fun hn => ?_⟩, ⟨fun hp => ?_, fun hp => ?_⟩,
    ⟨fun he => ?_, fun he => ?_⟩⟩ <;> simp [applyEdit, *]

theorem parseLine_eq_none_iff (l : List Char) :
    parseLine l = none ↔ stoi (splitOnPipe l).1 = none := by
  unfold parseLine
  cases h : stoi (splitOnPipe l).1 <;> simp

theorem parseLine_eq_some_of_stoi (l : List Char) (k : Int)
    (hk : stoi (splitOnPipe l).1 = some k) :
    parseLine l =
      some ⟨k, (splitFields l).getD 1 [], (splitFields l).getD 2 [],
        (splitFields l).getD 3 []⟩ := by
  unfold parseLine
  rw [hk]

theorem parseLinesList_eq_none_iff (ls : List (List Char)) :
    parseLinesList ls = none ↔ ∃ l ∈ ls, parseLine l = none := by
  induction ls with
  | nil => simp [parseLinesList]
  | cons l ls ih =>
    cases hl : parseLine l with
    | none =>
      simp only [parseLinesList, hl]
      exact ⟨fun _ => ⟨l, List.mem_cons_self l ls, hl⟩, fun _ => trivial⟩
    | some c =>
      cases hls : parseLinesList ls with
      | none =>
        simp only [parseLinesList, hl, hls]
        refine ⟨fun _ => ?_, fun _ => trivial⟩
        obtain ⟨l', hm, hn⟩ := ih.mp hls
        exact ⟨l', List.mem_cons_of_mem _ hm, hn⟩
      | some cs =>
        simp only [parseLinesList, hl, hls]
        constructor
        · intro h
          exact absurd h (by simp)
        · rintro ⟨l', hm, hn⟩
          rcases List.mem_cons.mp hm with rfl | hm'
          · exact absurd hl (by simp [hn])
          · have := ih.mpr ⟨l', hm', hn⟩
            rw [this] at hls
            exact absurd hls (by simp)

/-- CLAIM C4. Decoding fails exactly when some processed line's first
`'|'`-delimited field is rejected by the integer parse, the failure is fatal
(no contact list is produced at all), and decoding succeeds on every text
whose processed lines all carry a parseable id field. -/
theorem decode_fails_iff_bad_id_field (t : List Char) :
    loadContacts t = none ↔ ∃ l ∈ linesOf t, stoi (splitOnPipe l).1 = none := by
  rw [loadContacts, parseLinesList_eq_none_iff]
  simp only [parseLine_eq_none_iff]

/-- CLAIM C3 counterexample. The second text is the first with its empty
line removed, yet the decoder rejects the first (the empty line's id field
is empty) while accepting the second: empty lines are processed, not
skipped. -/
theorem decode_empty_line_not_skipped :
    (linesOf ['1', '|', 'a', '\n', '2', '|', 'b', '\n'] =
      (linesOf ['1', '|', 'a', '\n', '\n', '2', '|', 'b', '\n']).filter
        (fun l => !l.isEmpty)) ∧
    loadContacts ['1', '|', 'a', '\n', '\n', '2', '|', 'b', '\n'] = none ∧
    loadContacts ['1', '|', 'a', '\n', '2', '|', 'b', '\n'] =
      some [⟨1, ['a'], [], []⟩, ⟨2, ['b'], [], []⟩] := by
  exact ⟨by decide, by decide, by decide⟩

/-- CLAIM C3 amended. The decoder processes every line its line-splitting
produces, empty lines included: an empty line's first field is the empty
string, which the integer parse rejects, so any input text whose
line-splitting contains an empty line fails to decode as a whole.  (Only the
final line terminator produces no line at all.) -/
theorem decode_fails_on_empty_line (t : List Char) (h : [] ∈ linesOf t) :
    loadContacts t = none := by
  rw [loadContacts, parseLinesList_eq_none_iff]
  exact ⟨[], h, by decide⟩

theorem decode_fails_on_empty_line_witness :
    loadContacts ['1', '|', 'a', '\n', '\n'] = none :=
  decode_fails_on_empty_line ['1', '|', 'a', '\n', '\n'] (by decide)

theorem linesOf_single (l : List Char) (hnl : '\n' ∉ l) (hne : l ≠ []) :
    linesOf l = [l] := by
  induction l with
  | nil => exact absurd rfl hne
  | cons c cs ih =>
    have hc : ¬c = '\n' := fun hc => hnl (hc ▸ List.mem_cons_self c cs)
    have hcs : '\n' ∉ cs := fun h => hnl (List.mem_cons_of_mem c h)
    cases cs with
    | nil => simp [linesOf, hc]
    | cons d ds =>
      rw [linesOf]
      simp only [if_neg hc, ih hcs (by simp)]

/-- CLAIM C10. A line whose first field parses as an integer but which has
fewer than four `'|'`-delimited fields still decodes to one contact: the id
is the parsed integer and each missing trailing field is the empty string. -/
theorem decode_short_line_fills_empty_fields (l : List Char) (k : Int)
    (hnl : '\n' ∉ l) (hk : stoi (splitOnPipe l).1 = some k)
    (hlen : (splitFields l).length < 4) :
    ∃ c : Contact, loadContacts l = some [c] ∧ c.id = k ∧ c.email = [] ∧
      ((splitFields l).length ≤ 2 → c.phone = []) ∧
      ((splitFields l).length ≤ 1 → c.name = []) := by
  have hne : l ≠ [] := by
    rintro rfl
    simp [splitOnPipe, stoi] at hk
  refine ⟨⟨k, (splitFields l).getD 1 [], (splitFields l).getD 2 [],
    (splitFields l).getD 3 []⟩, ?_, rfl, ?_, ?_, ?_⟩
  · rw [loadContacts, linesOf_single l hnl hne]
    simp [parseLinesList, parseLine_eq_some_of_stoi l k hk]
  · exact List.getD_eq_default _ _ (by omega)
  · intro h
    exact List.getD_eq_default _ _ (by omega)
  · intro h
    exact List.getD_eq_default _ _ (by omega)

theorem decode_short_line_fills_empty_fields_witness :
    ∃ c : Contact, loadContacts ['7', '|', 'A'] = some [c] ∧ c.id = 7 ∧
      c.email = [] ∧
      ((splitFields ['7', '|', 'A']).length ≤ 2 → c.phone = []) ∧
      ((splitFields ['7', '|', 'A']).length ≤ 1 → c.name = []) :=
  decode_short_line_fills_empty_fields ['7', '|', 'A'] 7 (by decide) (by decide)
    (by decide)

theorem natSeq_succ (k : Nat) : natSeq (k + 1) = natSeq k ++ [(k : Int) + 1] := by
  simp [natSeq, List.range_succ]

theorem maxIdFold_eq_foldl (st : List Contact) (m : Int) :
    maxIdFold m st = List.foldl (fun a i => if i > a then i else a) m (st.map Contact.id) := by
  induction st generalizing m with
  | nil => rfl
  | cons c cs ih => simp [maxIdFold, ih]

theorem foldl_max_natSeq (k : Nat) :
    List.foldl (fun a i => if i > a then i else a) 0 (natSeq k) = (k : Int) := by
  induction k with
  | zero => rfl
  | succ k ih =>
    rw [natSeq_succ, List.foldl_append, ih]
    simp only [List.foldl_cons, List.foldl_nil]
    split <;> push_cast <;> omega

theorem nextId_natSeq (st : List Contact) (k : Nat)
    (h : st.map Contact.id = natSeq k) : nextId st = (k : Int) + 1 := by
  rw [nextId, maxIdFold_eq_foldl, h, foldl_max_natSeq]

theorem runAdds_ids (inputs : List (List Char × List Char × List Char)) :
    ∀ (st : List Contact) (k : Nat), st.map Contact.id = natSeq k →
      (runAdds st inputs).map Contact.id = natSeq (k + inputs.length) := by
  induction inputs with
  | nil => intro st k h; simpa using h
  | cons x rest ih =>
    intro st k h
    obtain ⟨n, p, e⟩ := x
    have hadd : (addContact st n p e).map Contact.id = natSeq (k + 1) := by
      rw [addContact, List.map_append, h, natSeq_succ, nextId_natSeq st k h]
      rfl
    have := ih (addContact st n p e) (k + 1) hadd
    rw [runAdds, this]
    congr 1
    simp [List.length_cons]
    omega

/-- CLAIM C2. Starting from the empty collection, a sequence of Add
operations assigns the ids `1, 2, 3, ...` in order: the resulting collection,
in creation order, carries exactly the ids `1` up to the number of adds. -/
theorem add_ids_count_up_from_one (inputs : List (List Char × List Char × List Char)) :
    (runAdds [] inputs).map Contact.id = natSeq inputs.length := by
  simpa using runAdds_ids inputs [] 0 rfl

theorem strFind_iff_substring (s q : List Char) : strFind s q = true ↔ q <:+: s := by
  induction s with
  | nil =>
    simp [strFind, List.isPrefixOf_iff_prefix, List.infix_nil, List.prefix_nil]
  | cons c s ih =>
    simp [strFind, List.isPrefixOf_iff_prefix, List.infix_cons_iff, ih]

theorem strFind_eq_decide (s q : List Char) : strFind s q = decide (q <:+: s) := by
  by_cases h : q <:+: s
  · simp [h, (strFind_iff_substring s q).mpr h]
  · simp only [h, decide_False]
    rcases hb : strFind s q with _ | _
    · rfl
    · exact absurd ((strFind_iff_substring s q).mp hb) h

theorem searchContacts_eq_filter_substring (st : List Contact) (q : List Char) :
    searchContacts st q =
      st.filter (fun c =>
        decide (trim q <:+: c.name ∨ trim q <:+: c.phone ∨ trim q <:+: c.email)) := by
  refine List.filter_congr (fun c _ => ?_)
  simp [strFind_eq_decide, Bool.or_assoc]

/-- CLAIM C6. Search returns exactly the contacts, in collection order, whose
name, phone or email contains the whitespace-trimmed query as a literal
case-sensitive substring; a query that is blank after trimming returns the
whole collection. -/
theorem search_filters_by_trimmed_substring (st : List Contact) (q : List Char) :
    (searchContacts st q =
      st.filter (fun c =>
        decide (trim q <:+: c.name ∨ trim q <:+: c.phone ∨ trim q <:+: c.email))) ∧
    (trim q = [] → searchContacts st q = st) := by
  refine ⟨searchContacts_eq_filter_substring st q, fun h => ?_⟩
  rw [searchContacts_eq_filter_substring st q, h]
  apply List.filter_eq_self.mpr
  intro c _
  simp [List.nil_infix]

theorem search_filters_by_trimmed_substring_witness :
    searchContacts [(⟨1, ['A'], ['5'], ['x']⟩ : Contact)] [' ', '\t'] =
      [⟨1, ['A'], ['5'], ['x']⟩] :=
  (search_filters_by_trimmed_substring [⟨1, ['A'], ['5'], ['x']⟩] [' ', '\t']).2
    (by decide)

theorem maxIdFold_init_le (st : List Contact) (m : Int) : m ≤ maxIdFold m st := by
  induction st generalizing m with
  | nil => exact le_refl m
  | cons c cs ih =>
    refine le_trans ?_ (ih (if c.id > m then c.id else m))
    split <;> omega

theorem id_le_maxIdFold (st : List Contact) (m : Int) (c : Contact) (hc : c ∈ st) :
    c.id ≤ maxIdFold m st := by
  induction st generalizing m with
  | nil => simp at hc
  | cons d cs ih =>
    rcases List.mem_cons.mp hc with rfl | hmem
    · refine le_trans ?_ (maxIdFold_init_le cs (if c.id > m then c.id else m))
      split <;> omega
    · exact ih _ hmem

theorem id_lt_nextId (st : List Contact) (c : Contact) (hc : c ∈ st) :
    c.id < nextId st := by
  have h1 := id_le_maxIdFold st 0 c hc
  rw [nextId]
  omega

theorem uniqueIds_addContact (st : List Contact) (n p e : List Char)
    (h : uniqueIds st) : uniqueIds (addContact st n p e) := by
  unfold uniqueIds addContact
  rw [List.map_append, List.nodup_append]
  refine ⟨h, List.nodup_singleton _, fun x hx hy => ?_⟩
  obtain ⟨c, hc, rfl⟩ := List.mem_map.mp hx
  have hlt := id_lt_nextId st c hc
  simp only [List.map_cons, List.map_nil, List.mem_singleton] at hy
  omega

theorem editContact_map_id (st : List Contact) (i : Int) (n p e : List Char)
    (st' : List Contact) (h : editContact st i n p e = some st') :
    st'.map Contact.id = st.map Contact.id := by
  induction st generalizing st' with
  | nil => simp [editContact] at h
  | cons c cs ih =>
    by_cases hc : c.id = i
    · rw [editContact, if_pos hc, Option.some_inj] at h
      subst h
      rfl
    · rw [editContact, if_neg hc] at h
      obtain ⟨cs', hcs', rfl⟩ := Option.map_eq_some'.mp h
      simp [ih cs' hcs']

theorem uniqueIds_deleteContact (st : List Contact) (i : Int) (st' : List Contact)
    (h : deleteContact st i = some st') (hu : uniqueIds st) : uniqueIds st' := by
  have hst' : st' = st.filter (fun c => !(c.id == i)) :=
    (delete_removes_id_and_keeps_rest st i st' h).2
  subst hst'
  exact List.Nodup.sublist ((List.filter_sublist st).map Contact.id) hu

theorem uniqueIds_applyOp (st : List Contact) (o : Op) (h : uniqueIds st) :
    uniqueIds (applyOp st o) := by
  cases o with
  | add n p e => exact uniqueIds_addContact st n p e h
  | edit i n p e =>
    cases he : editContact st i n p e with
    | none => simpa [applyOp, he] using h
    | some st' =>
      have hmap := editContact_map_id st i n p e st' he
      simp only [applyOp, he, Option.getD_some]
      unfold uniqueIds at h ⊢
      rw [hmap]
      exact h
  | del i =>
    cases hd : deleteContact st i with
    | none => simpa [applyOp, hd] using h
    | some st' =>
      simp only [applyOp, hd, Option.getD_some]
      exact uniqueIds_deleteContact st i st' hd h

/-- CLAIM C8 counterexample. A persisted file may contain duplicated ids, and
`loadContacts` takes them as they are: after loading this two-line text and
performing no operation at all, the collection holds two contacts with id 1,
so uniqueness does not hold in every state reachable from a load. -/
theorem load_can_violate_unique_ids :
    loadContacts ['1', '|', 'a', '\n', '1', '|', 'b', '\n'] =
      some [⟨1, ['a'], [], []⟩, ⟨1, ['b'], [], []⟩] ∧
    ¬ uniqueIds (runOps [⟨1, ['a'], [], []⟩, ⟨1, ['b'], [], []⟩] []) := by
  constructor
  · decide
  · unfold runOps uniqueIds
    decide

/-- CLAIM C8 amended. Uniqueness of ids is preserved by the operations: from
any collection whose ids are unique — in particular the empty collection of
a missing file, or any collection saved from a unique-id state — every state
reachable by Add, Edit and Delete has unique ids.  (A load of a hand-edited
file with duplicate ids, however, starts outside this invariant.) -/
theorem unique_ids_preserved_by_ops (st : List Contact) (ops : List Op)
    (h : uniqueIds st) : uniqueIds (runOps st ops) := by
  induction ops generalizing st with
  | nil => exact h
  | cons o os ih => exact ih (applyOp st o) (uniqueIds_applyOp st o h)

theorem unique_ids_preserved_by_ops_witness :
    uniqueIds (runOps [(⟨1, ['a'], [], []⟩ : Contact)]
      [Op.add ['b'] [] [], Op.del 1, Op.edit 2 ['c'] [] []]) :=
  unique_ids_preserved_by_ops [⟨1, ['a'], [], []⟩] _
    (by unfold uniqueIds; decide)

theorem edit_stores_raw_input_witness :
    (applyEdit ⟨1, ['A'], ['7'], ['z']⟩ [' ', 'B', ' '] [' ', '9'] ['x', ' ']).name =
      [' ', 'B', ' '] :=
  (edit_stores_raw_input ⟨1, ['A'], ['7'], ['z']⟩ [' ', 'B', ' '] [' ', '9']
    ['x', ' ']).1.1 (by decide)

theorem digitChar_props (d : Nat) (hd : d < 10) :
    isDigitCh (Char.ofNat (48 + d)) = true ∧ (Char.ofNat (48 + d)).toNat = 48 + d ∧
      Char.ofNat (48 + d) ≠ '|' ∧ Char.ofNat (48 + d) ≠ '\n' ∧
      isSpaceCh (Char.ofNat (48 + d)) = false ∧ Char.ofNat (48 + d) ≠ '+' ∧
      Char.ofNat (48 + d) ≠ '-' := by
  interval_cases d <;> decide

theorem natRepr_chars (n : Nat) :
    ∀ c ∈ natRepr n, ∃ d, d < 10 ∧ c = Char.ofNat (48 + d) := by
  unfold natRepr
  split
  · intro c hc
    simp only [List.mem_singleton] at hc
    exact ⟨0, by omega, by subst hc; decide⟩
  · intro c hc
    rw [List.mem_reverse, List.mem_map] at hc
    obtain ⟨d, hd, rfl⟩ := hc
    exact ⟨d, Nat.digits_lt_base (by norm_num) hd, rfl⟩

theorem natRepr_all_digit (n : Nat) : ∀ c ∈ natRepr n, isDigitCh c = true := by
  intro c hc
  obtain ⟨d, hd, rfl⟩ := natRepr_chars n c hc
  exact (digitChar_props d hd).1

theorem natRepr_ne_nil (n : Nat) : natRepr n ≠ [] := by
  unfold natRepr
  split
  · simp
  · simp only [ne_eq, List.reverse_eq_nil_iff, List.map_eq_nil_iff]
    exact Nat.digits_ne_nil_iff_ne_zero.mpr (by assumption)

theorem pipe_not_mem_intRepr (i : Int) : '|' ∉ intRepr i := by
  unfold intRepr
  split <;> intro hmem
  · rcases List.mem_cons.mp hmem with h | h
    · exact absurd h (by decide)
    · obtain ⟨d, hd, hc⟩ := natRepr_chars i.natAbs '|' h
      exact (digitChar_props d hd).2.2.1 hc.symm
  · obtain ⟨d, hd, hc⟩ := natRepr_chars i.toNat '|' hmem
    exact (digitChar_props d hd).2.2.1 hc.symm

theorem newline_not_mem_intRepr (i : Int) : '\n' ∉ intRepr i := by
  unfold intRepr
  split <;> intro hmem
  · rcases List.mem_cons.mp hmem with h | h
    · exact absurd h (by decide)
    · obtain ⟨d, hd, hc⟩ := natRepr_chars i.natAbs '\n' h
      exact (digitChar_props d hd).2.2.2.1 hc.symm
  · obtain ⟨d, hd, hc⟩ := natRepr_chars i.toNat '\n' hmem
    exact (digitChar_props d hd).2.2.2.1 hc.symm

theorem foldl_digitFold_digits (L : List Nat) (hL : ∀ d ∈ L, d < 10) :
    ((L.map fun d => Char.ofNat (48 + d)).reverse).foldl digitFold 0 =
      Nat.ofDigits 10 L := by
  induction L with
  | nil => simp [Nat.ofDigits_nil]
  | cons d L ih =>
    have hd : d < 10 := hL d (List.mem_cons_self d L)
    rw [List.map_cons, List.reverse_cons, List.foldl_append,
      ih (fun x hx => hL x (List.mem_cons_of_mem d hx))]
    simp only [List.foldl_cons, List.foldl_nil, digitFold,
      (digitChar_props d hd).2.1, Nat.ofDigits_cons]
    omega

theorem foldl_digitFold_natRepr (n : Nat) : (natRepr n).foldl digitFold 0 = n := by
  unfold natRepr
  split
  · subst_vars
    rfl
  · rw [foldl_digitFold_digits _ (fun d hd => Nat.digits_lt_base (by norm_num) hd),
      Nat.ofDigits_digits]

theorem stoiDigits_all_digits (s : List Char) (h : ∀ c ∈ s, isDigitCh c = true)
    (hne : s ≠ []) : stoiDigits s = some (s.foldl digitFold 0) := by
  cases s with
  | nil => exact absurd rfl hne
  | cons c cs =>
    unfold stoiDigits
    rw [List.takeWhile_eq_self_iff.mpr h]

theorem stoiDigits_natRepr (n : Nat) : stoiDigits (natRepr n) = some n := by
  rw [stoiDigits_all_digits (natRepr n) (natRepr_all_digit n) (natRepr_ne_nil n),
    foldl_digitFold_natRepr]

theorem dropWhile_isSpaceCh_natRepr (n : Nat) :
    (natRepr n).dropWhile isSpaceCh = natRepr n := by
  cases h : natRepr n with
  | nil => rfl
  | cons c cs =>
    have hc : c ∈ natRepr n := by rw [h]; exact List.mem_cons_self c cs
    obtain ⟨d, hd, rfl⟩ := natRepr_chars n c hc
    rw [List.dropWhile_cons, (digitChar_props d hd).2.2.2.2.1]
    simp

theorem stoi_intRepr (i : Int) (hr : intMin ≤ i ∧ i ≤ intMax) :
    stoi (intRepr i) = some i := by
  by_cases hi : i < 0
  · rw [intRepr, if_pos hi]
    have hdw : ('-' :: natRepr i.natAbs).dropWhile isSpaceCh = '-' :: natRepr i.natAbs := by
      rw [List.dropWhile_cons, if_neg (by decide)]
    simp only [stoi, hdw, List.head!_cons, List.tail_cons]
    rw [if_pos trivial, stoiDigits_natRepr]
    show (if intMin ≤ -(i.natAbs : Int) ∧ -(i.natAbs : Int) ≤ intMax then
        some (-(i.natAbs : Int)) else none) = some i
    rw [if_pos (by omega), Option.some_inj]
    omega
  · rw [intRepr, if_neg hi]
    have hhead : (natRepr i.toNat).head! ≠ '+' ∧ (natRepr i.toNat).head! ≠ '-' := by
      cases hrep : natRepr i.toNat with
      | nil => exact absurd hrep (natRepr_ne_nil i.toNat)
      | cons c cs =>
        have hc : c ∈ natRepr i.toNat := by rw [hrep]; exact List.mem_cons_self c cs
        obtain ⟨d, hd, rfl⟩ := natRepr_chars i.toNat c hc
        rw [List.head!_cons]
        exact ⟨(digitChar_props d hd).2.2.2.2.2.1, (digitChar_props d hd).2.2.2.2.2.2⟩
    simp only [stoi, dropWhile_isSpaceCh_natRepr i.toNat]
    rw [if_neg (natRepr_ne_nil i.toNat), if_neg hhead.1, if_neg hhead.2,
      stoiDigits_natRepr]
    show (if intMin ≤ (i.toNat : Int) ∧ (i.toNat : Int) ≤ intMax then
        some ((i.toNat : Int)) else none) = some i
    rw [if_pos (by omega), Option.some_inj]
    omega

theorem splitOnPipe_no_pipe (a : List Char) (h : '|' ∉ a) :
    splitOnPipe a = (a, []) := by
  induction a with
  | nil => rfl
  | cons c cs ih =>
    have hc : ¬ c = '|' := fun hc => h (hc ▸ List.mem_cons_self c cs)
    have hcs : '|' ∉ cs := fun hm => h (List.mem_cons_of_mem c hm)
    simp [splitOnPipe, hc, ih hcs]

theorem splitOnPipe_append (a r : List Char) (h : '|' ∉ a) :
    splitOnPipe (a ++ '|' :: r) = (a, (splitOnPipe r).1 :: (splitOnPipe r).2) := by
  induction a with
  | nil => simp [splitOnPipe]
  | cons c cs ih =>
    have hc : ¬ c = '|' := fun hc => h (hc ▸ List.mem_cons_self c cs)
    have hcs : '|' ∉ cs := fun hm => h (List.mem_cons_of_mem c hm)
    simp [splitOnPipe, hc, ih hcs]

theorem linesOf_append (l r : List Char) (h : '\n' ∉ l) :
    linesOf (l ++ '\n' :: r) = l :: linesOf r := by
  induction l with
  | nil => simp [linesOf]
  | cons c cs ih =>
    have hc : ¬ c = '\n' := fun hc => h (hc ▸ List.mem_cons_self c cs)
    have hcs : '\n' ∉ cs := fun hm => h (List.mem_cons_of_mem c hm)
    rw [List.cons_append, linesOf]
    simp only [if_neg hc, ih hcs]

theorem parseLine_encoded_body (c : Contact) (hid : intMin ≤ c.id ∧ c.id ≤ intMax)
    (hn : '|' ∉ c.name) (hp : '|' ∉ c.phone) (he : '|' ∉ c.email) :
    parseLine (intRepr c.id ++ '|' :: (c.name ++ '|' :: (c.phone ++ '|' :: c.email))) =
      some c := by
  have hsplit :
      splitOnPipe (intRepr c.id ++ '|' :: (c.name ++ '|' :: (c.phone ++ '|' :: c.email))) =
        (intRepr c.id, [c.name, c.phone, c.email]) := by
    rw [splitOnPipe_append _ _ (pipe_not_mem_intRepr c.id),
      splitOnPipe_append _ _ hn, splitOnPipe_append _ _ hp, splitOnPipe_no_pipe _ he]
  unfold parseLine
  rw [hsplit, stoi_intRepr c.id hid]
  simp only [splitFields, hsplit]
  rfl

theorem encodeContact_no_newline_body (c : Contact) (hn : '\n' ∉ c.name)
    (hp : '\n' ∉ c.phone) (he : '\n' ∉ c.email) :
    '\n' ∉ intRepr c.id ++ '|' :: (c.name ++ '|' :: (c.phone ++ '|' :: c.email)) := by
  intro hmem
  rcases List.mem_append.mp hmem with h | h
  · exact newline_not_mem_intRepr c.id h
  · rcases List.mem_cons.mp h with h | h
    · exact absurd h (by decide)
    · rcases List.mem_append.mp h with h | h
      · exact hn h
      · rcases List.mem_cons.mp h with h | h
        · exact absurd h (by decide)
        · rcases List.mem_append.mp h with h | h
          · exact hp h
          · rcases List.mem_cons.mp h with h | h
            · exact absurd h (by decide)
            · exact he h

theorem saveContacts_cons (c : Contact) (cs : List Contact) :
    saveContacts (c :: cs) =
      (intRepr c.id ++ '|' :: (c.name ++ '|' :: (c.phone ++ '|' :: c.email))) ++
        '\n' :: saveContacts cs := by
  show encodeContact c ++ saveContacts cs = _
  unfold encodeContact
  simp [List.append_assoc]

/-- CLAIM C1. Round trip of the storage codec: when no field of any contact
contains the delimiter `'|'` or a newline, decoding the encoded text yields
exactly the original contacts — same ids, same field values, same order.
The id bound is the data model, not an extra assumption: `Contact.id` is a
C++ `int`, so every contact the program can hold has its id in `int` range
(the Lean model's unbounded `Int` is wider than the program's type). -/
theorem encode_decode_roundtrip (cs : List Contact)
    (h : ∀ c ∈ cs, (intMin ≤ c.id ∧ c.id ≤ intMax) ∧
      ('|' ∉ c.name ∧ '\n' ∉ c.name) ∧ ('|' ∉ c.phone ∧ '\n' ∉ c.phone) ∧
      ('|' ∉ c.email ∧ '\n' ∉ c.email)) :
    loadContacts (saveContacts cs) = some cs := by
  induction cs with
  | nil => rfl
  | cons c cs ih =>
    obtain ⟨hid, ⟨hn1, hn2⟩, ⟨hp1, hp2⟩, ⟨he1, he2⟩⟩ := h c (List.mem_cons_self c cs)
    have hrest := ih (fun x hx => h x (List.mem_cons_of_mem c hx))
    rw [saveContacts_cons, loadContacts,
      linesOf_append _ _ (encodeContact_no_newline_body c hn2 hp2 he2)]
    rw [loadContacts] at hrest
    simp [parseLinesList, parseLine_encoded_body c hid hn1 hp1 he1, hrest]

theorem encode_decode_roundtrip_witness :
    loadContacts (saveContacts
      [(⟨1, ['A', 'n', 'a'], ['5', '5'], ['a', '@', 'x']⟩ : Contact),
        ⟨2, ['B', 'o'], [], ['b', '@', 'y']⟩]) =
      some [⟨1, ['A', 'n', 'a'], ['5', '5'], ['a', '@', 'x']⟩,
        ⟨2, ['B', 'o'], [], ['b', '@', 'y']⟩] :=
  encode_decode_roundtrip
    [⟨1, ['A', 'n', 'a'], ['5', '5'], ['a', '@', 'x']⟩,
      ⟨2, ['B', 'o'], [], ['b', '@', 'y']⟩] (by decide)

end CMS
